import Mathlib

set_option maxRecDepth 40000

/-!
Verification of the washOTP TOTP core (`washOTP/totp.py`) through a shallow
embedding in Lean 4.

Modelling conventions:
* Python strings are Lean `String`s (a structure over `List Char`), and the
  string-manipulation builtins used by the source (`bin`, `hex`, `str`,
  `zfill`, `find`, slicing, `int(s, base)`) are embedded as `py*` functions
  below, faithful to CPython semantics on the inputs the source produces
  (including `str.find`'s `-1` result and `bin(-1)`).
* Times are modelled as non-negative integers (`Nat`); the source floors the
  clock to integer seconds, and the claims under study only involve explicit
  non-negative times.  `floor(time / period)` is embedded as exact natural
  division.
* Fallible operations (Python exceptions such as `ValueError` from `int`,
  `IndexError` from list indexing) are modelled with `Option`/`Except`.
* The keyed-hash engine (`hmac.new(...).hexdigest()` from the Python standard
  library, external to this repository) is a parameter `fn : String → String
  → String` of `generate_token`, constrained in theorems to return full hex
  digests, which is what `hexdigest` guarantees.
-/

/-! ## Python-style numeral rendering (`bin`, `hex`, `str`) -/

/-- Digit-accumulator loop producing the base-`b` digits of `n` (most
significant first), structurally recursive on `fuel`.  With `fuel > n` it
computes all digits (see `digitsF_eq_digitsRec2`). -/
def digitsF (b : Nat) : Nat → Nat → List Char → List Char
  | 0, _, acc => acc
  | fuel+1, n, acc =>
    if n = 0 then acc else digitsF b fuel (n / b) (Nat.digitChar (n % b) :: acc)

/-- The base-`(b2+2)` digit list of `n` (empty for `n = 0`), in the
well-founded form convenient for proofs. -/
def digitsRec2 (b2 : Nat) (n : Nat) : List Char :=
  if h : n = 0 then []
  else digitsRec2 b2 (n / (b2+2)) ++ [Nat.digitChar (n % (b2+2))]
termination_by n
decreasing_by exact Nat.div_lt_self (Nat.pos_of_ne_zero h) (by omega)

/-- Python's unsigned numeral rendering in base `b`: `bin(n)[2:]`,
`hex(n)[2:]` and `str(n)` for `n ≥ 0` (bases 2, 16, 10). -/
def pyDigits (b : Nat) (n : Nat) : String :=
  if n = 0 then "0" else ⟨digitsF b (n+1) n []⟩

theorem digitsF_eq_digitsRec2 (b2 : Nat) :
    ∀ (fuel n : Nat) (acc : List Char), n < fuel →
      digitsF (b2+2) fuel n acc = digitsRec2 b2 n ++ acc := by
  intro fuel
  induction fuel with
  | zero => intro n acc h; omega
  | succ fuel ih =>
    intro n acc h
    by_cases hn : n = 0
    · subst hn; simp [digitsF, digitsRec2]
    · rw [digitsF, if_neg hn, ih _ _ (by
        have h1 : n / (b2+2) < n := Nat.div_lt_self (Nat.pos_of_ne_zero hn) (by omega)
        omega)]
      conv_rhs => rw [digitsRec2, dif_neg hn]
      simp

theorem pyDigits_eq (b2 : Nat) (n : Nat) :
    pyDigits (b2+2) n = if n = 0 then "0" else ⟨digitsRec2 b2 n⟩ := by
  by_cases hn : n = 0
  · simp [pyDigits, hn]
  · simp only [pyDigits, if_neg hn]
    rw [digitsF_eq_digitsRec2 b2 (n+1) n [] (Nat.lt_succ_self n)]
    simp

theorem digitsRec2_chars (b2 : Nat) (n : Nat) :
    ∀ c ∈ digitsRec2 b2 n, ∃ d, d < b2+2 ∧ c = Nat.digitChar d := by
  induction n using Nat.strong_induction_on with
  | _ n ih =>
    intro c hc
    rw [digitsRec2] at hc
    split at hc
    · simp at hc
    · next hn =>
      rcases List.mem_append.1 hc with h | h
      · exact ih _ (Nat.div_lt_self (Nat.pos_of_ne_zero hn) (by omega)) c h
      · simp at h
        exact ⟨n % (b2+2), Nat.mod_lt _ (by omega), h⟩

/-! ## Python's `int(s, base)` -/

/-- The numeric value CPython assigns to a digit character in `int(s, base)`:
`0`-`9`, then `a`-`z` / `A`-`Z` as 10..35; any other character gets a value
(99) that no base accepts. -/
def charVal (c : Char) : Nat :=
  if 48 ≤ c.toNat ∧ c.toNat ≤ 57 then c.toNat - 48
  else if 97 ≤ c.toNat ∧ c.toNat ≤ 122 then c.toNat - 87
  else if 65 ≤ c.toNat ∧ c.toNat ≤ 90 then c.toNat - 55
  else 99

/-- A digit character is valid for base `b` when its value is below `b`. -/
def pyDigitVal (b : Nat) (c : Char) : Option Nat :=
  if charVal c < b then some (charVal c) else none

/-- The digit-consuming loop of `int(s, base)`; `none` models `ValueError`. -/
def intValGo (b : Nat) : List Char → Nat → Option Nat
  | [], acc => some acc
  | c :: rest, acc =>
    match pyDigitVal b c with
    | none => none
    | some v => intValGo b rest (b * acc + v)

/-- Python's `int(s, base)` on the strings produced by this program: an
optional single leading sign followed by at least one digit of the base
(the source never feeds it whitespace or underscores). -/
def pyIntSigned (b : Nat) (l : List Char) : Option Int :=
  match l with
  | [] => none
  | c :: rest =>
    if c = '-' then
      if rest = [] then none else (intValGo b rest 0).map (fun n => -(n : Int))
    else if c = '+' then
      if rest = [] then none else (intValGo b rest 0).map (fun n => (n : Int))
    else (intValGo b (c :: rest) 0).map (fun n => (n : Int))

theorem intValGo_append (b : Nat) (l1 l2 : List Char) :
    ∀ A, intValGo b (l1 ++ l2) A = (intValGo b l1 A).bind (intValGo b l2) := by
  induction l1 with
  | nil => intro A; simp [intValGo]
  | cons c rest ih =>
    intro A
    simp only [List.cons_append, intValGo]
    cases pyDigitVal b c with
    | none => simp
    | some v => simp [ih]

theorem intValGo_of_valid (b : Nat) (l : List Char)
    (h : ∀ c ∈ l, charVal c < b) :
    ∀ A, intValGo b l A = some (l.foldl (fun a c => b * a + charVal c) A) := by
  induction l with
  | nil => intro A; simp [intValGo]
  | cons c rest ih =>
    intro A
    have hc : charVal c < b := h c (by simp)
    simp only [intValGo, pyDigitVal, if_pos hc, List.foldl_cons]
    exact ih (fun x hx => h x (by simp [hx])) _

theorem charVal_digitChar : ∀ d, d < 16 → charVal (Nat.digitChar d) = d := by
  decide

theorem digitChar_ne_sign : ∀ d, d < 16 →
    Nat.digitChar d ≠ '-' ∧ Nat.digitChar d ≠ '+' := by
  decide

/-- Parsing the digit string of `n` back in base 16 recovers `n`. -/
theorem intValGo_digitsRec2_16 (n : Nat) :
    ∀ A, intValGo 16 (digitsRec2 14 n) A =
      some (A * 16 ^ (digitsRec2 14 n).length + n) := by
  induction n using Nat.strong_induction_on with
  | _ n ih =>
    intro A
    rw [digitsRec2]
    by_cases hn : n = 0
    · simp [hn, intValGo]
    · rw [dif_neg hn, intValGo_append]
      have hlt : n / 16 < n := Nat.div_lt_self (Nat.pos_of_ne_zero hn) (by omega)
      rw [ih _ hlt]
      have hm : n % 16 < 16 := Nat.mod_lt _ (by omega)
      simp only [Option.some_bind, intValGo, pyDigitVal, charVal_digitChar _ hm,
        if_pos hm]
      rw [List.length_append, List.length_singleton, pow_succ, ← mul_assoc]
      simp only [Option.some.injEq]
      set M := A * 16 ^ (digitsRec2 14 (n / 16)).length with hM
      omega

theorem intValGo_replicate_zero (b : Nat) (hb : 0 < b) (k : Nat) (l : List Char) :
    intValGo b (List.replicate k '0' ++ l) 0 = intValGo b l 0 := by
  induction k with
  | zero => simp
  | succ k ih =>
    have h0 : charVal '0' = 0 := by decide
    simp only [List.replicate_succ, List.cons_append, intValGo, pyDigitVal, h0,
      if_pos hb]
    simpa using ih

theorem digitsRec2_ne_nil (b2 : Nat) (n : Nat) (hn : n ≠ 0) :
    digitsRec2 b2 n ≠ [] := by
  rw [digitsRec2, dif_neg hn]
  simp

theorem digitsRec2_length_le (b2 : Nat) (k : Nat) :
    ∀ n, n < (b2+2) ^ k → (digitsRec2 b2 n).length ≤ k := by
  induction k with
  | zero =>
    intro n hn
    have hn0 : n = 0 := by simpa [Nat.lt_one_iff] using hn
    subst hn0
    simp [digitsRec2]
  | succ k ih =>
    intro n hn
    rw [digitsRec2]
    split
    · simp
    · next hn0 =>
      have hdiv : n / (b2+2) < (b2+2) ^ k := by
        rw [Nat.div_lt_iff_lt_mul (by omega)]
        calc n < (b2+2) ^ (k+1) := hn
        _ = (b2+2) ^ k * (b2+2) := by ring
      have := ih _ hdiv
      simp [List.length_append]
      omega

/-! ## Python string helpers -/

/-- Python's `str.zfill(width)`: pad with leading zeros to `width`, keeping a
leading sign in front of the zeros. -/
def pyZfill (s : String) (width : Nat) : String :=
  match s.data with
  | [] => ⟨List.replicate width '0'⟩
  | c :: rest =>
    if c = '-' ∨ c = '+' then ⟨c :: (List.replicate (width - s.length) '0' ++ rest)⟩
    else ⟨List.replicate (width - s.length) '0' ++ c :: rest⟩

/-- Python's `str.find` for a single-character needle: index of the first
occurrence, or `-1` when absent. -/
def pyFindAux : List Char → Char → Nat → Int
  | [], _, _ => -1
  | d :: rest, c, i => if d = c then (i : Int) else pyFindAux rest c (i + 1)

def pyFind (s : String) (c : Char) : Int := pyFindAux s.data c 0

/-- Python's `s[:n]` for `n ≥ 0`. -/
def pyTake (s : String) (n : Nat) : String := ⟨s.data.take n⟩

/-- Python's `s[-n:]` for `n ≥ 0`: the whole string when `n = 0`, otherwise
the last `min n (len s)` characters. -/
def pyTakeLast (s : String) (n : Nat) : String :=
  if n = 0 then s else ⟨s.data.drop (s.data.length - n)⟩

/-- Python's `str.lower` (the strings involved are ASCII). -/
def pyLower (s : String) : String := ⟨s.data.map Char.toLower⟩

/-- Python's `bin(n)` with the `"0b"` marker removed by `str.replace`; for a
negative argument `bin` yields `-0b...`, so the sign survives. -/
def pyBinStripped (n : Int) : String :=
  if n < 0 then "-" ++ pyDigits 2 (-n).toNat else pyDigits 2 n.toNat

/-- Python's `hex(n)[2:]`; for a negative argument `hex` yields `-0x...`, so
slicing off two characters leaves `x` followed by the digits. -/
def pyHexStripped (n : Int) : String :=
  if n < 0 then "x" ++ pyDigits 16 (-n).toNat else pyDigits 16 n.toNat

/-- Substring occurrence test (used to state facts about provisioning URIs). -/
def startsList : List Char → List Char → Bool
  | [], _ => true
  | _ :: _, [] => false
  | a :: as, b :: bs => a == b && startsList as bs

def occursAux (pat : List Char) : List Char → Bool
  | [] => startsList pat []
  | c :: rest => startsList pat (c :: rest) || occursAux pat rest

/-- `occursIn s pat` holds when `pat` occurs as a contiguous substring of `s`. -/
def occursIn (s pat : String) : Bool := occursAux pat.data s.data

/-- The 4-character slices `s[i:i+4]` for `i = 0, 4, 8, ...` (the loop shape
of `_convert_from_secret`). -/
def chunk4 : List Char → List (List Char)
  | [] => []
  | [a] => [[a]]
  | [a, b] => [[a, b]]
  | [a, b, c] => [[a, b, c]]
  | a :: b :: c :: d :: rest => [a, b, c, d] :: chunk4 rest

/-- The 2-character slices `s[i:i+2]` for `i = 0, 2, 4, ...` (the loop shape
of `_gen_htop_value`). -/
def chunk2 : List Char → List (List Char)
  | [] => []
  | [a] => [[a]]
  | a :: b :: rest => [a, b] :: chunk2 rest

theorem chunk2_length : ∀ l : List Char, (chunk2 l).length = (l.length + 1) / 2 := by
  intro l
  induction l using chunk2.induct with
  | case1 => simp [chunk2]
  | case2 a => simp [chunk2]
  | case3 a b rest ih => simp [chunk2, ih]; omega

theorem chunk2_mem : ∀ (l : List Char) (ch : List Char), ch ∈ chunk2 l →
    ch ≠ [] ∧ ch.length ≤ 2 ∧ ∀ c ∈ ch, c ∈ l := by
  intro l
  induction l using chunk2.induct with
  | case1 => simp [chunk2]
  | case2 a => intro ch hch; simp [chunk2] at hch; subst hch; simp
  | case3 a b rest ih =>
    intro ch hch
    simp only [chunk2, List.mem_cons] at hch
    rcases hch with h | h
    · subst h; simp
    · obtain ⟨h1, h2, h3⟩ := ih ch h
      exact ⟨h1, h2, fun c hc => by simp [h3 c hc]⟩

theorem chunk4_mem : ∀ (l : List Char) (ch : List Char), ch ∈ chunk4 l →
    ch ≠ [] ∧ ∀ c ∈ ch, c ∈ l := by
  intro l
  induction l using chunk4.induct with
  | case1 => simp [chunk4]
  | case2 a => intro ch hch; simp [chunk4] at hch; subst hch; simp
  | case3 a b => intro ch hch; simp [chunk4] at hch; subst hch; simp
  | case4 a b c => intro ch hch; simp [chunk4] at hch; subst hch; simp
  | case5 a b c d rest ih =>
    intro ch hch
    simp only [chunk4, List.mem_cons] at hch
    rcases hch with h | h
    · subst h; simp
    · obtain ⟨h1, h2⟩ := ih ch h
      exact ⟨h1, fun c hc => by simp [h2 c hc]⟩

/-! ## The source embedding: `washOTP/totp.py` -/

/-- The 32-symbol secret alphabet (`totp.py` line 8). -/
def _CHARSET : String := "ABCDEFGHIJKLMNOPQRSTUVWXYZ234567"

/-- `_parse_http` (line 11): percent-encode spaces, nothing else. -/
def _parse_http (link : String) : String :=
  String.join (link.data.map fun c => if c = ' ' then "%20" else ⟨[c]⟩)

/-- The inner `_lambda` of `_convert_from_secret` (lines 20-22):
`bin(_CHARSET.find(value)).replace("0b", "").zfill(5)`.  Note that for a
character absent from the alphabet `find` yields `-1`, whose rendering is
`-1` and whose `zfill` is `-0001`. -/
def _lambda (value : Char) : List Char :=
  (pyZfill (pyBinStripped (pyFind _CHARSET value)) 5).data

/-- The hex-rendering loop of `_convert_from_secret` (lines 26-28):
`new_string += hex(int(binary_string[i:i+4], 2))[2:]` over 4-character
slices; `none` models the `ValueError` that `int` raises on a slice that is
not a valid numeral. -/
def hexJoin : List (List Char) → Option String
  | [] => some ""
  | ch :: rest =>
    match pyIntSigned 2 ch with
    | none => none
    | some v =>
      match hexJoin rest with
      | none => none
      | some s => some (pyHexStripped v ++ s)

/-- `_convert_from_secret` (lines 19-29). -/
def _convert_from_secret (secret : String) : Option String :=
  hexJoin (chunk4 (secret.data.map _lambda).flatten)

/-- The byte-list comprehension of `_gen_htop_value` (line 43):
`[int(hash_value[h:h+2], 16) for h in range(0, len(hash_value), 2)]`.
Hex digests contain no sign characters, so the unsigned parse of `int(_, 16)`
is used; `none` models `ValueError` on a non-hex character. -/
def parseBytes : List (List Char) → Option (List Nat)
  | [] => some []
  | ch :: rest =>
    match ch with
    | [] => none
    | _ =>
      match intValGo 16 ch 0 with
      | none => none
      | some v => (parseBytes rest).map (v :: ·)

/-- `_gen_htop_value` (lines 42-53): RFC 4226 dynamic truncation.  `none`
models the `IndexError` Python raises when the list is empty or an offset
index is out of range. -/
def _gen_htop_value (hash_value : String) (digits : Nat) : Option Nat := do
  let hmac_result ← parseBytes (chunk2 hash_value.data)
  let last ← hmac_result.getLast?
  let offset := last &&& 0xf
  let b0 ← hmac_result[offset]?
  let b1 ← hmac_result[offset + 1]?
  let b2 ← hmac_result[offset + 2]?
  let b3 ← hmac_result[offset + 3]?
  let code := ((b0 &&& 0x7f) <<< 24) ||| ((b1 &&& 0xff) <<< 16) |||
    ((b2 &&& 0xff) <<< 8) ||| (b3 &&& 0xff)
  pure (code % 10 ^ digits)

/-- The algorithm-dependent secret pre-padding of `generate_token`
(lines 72-76). -/
def padKey (algoName : String) (key : String) : String :=
  if algoName = "sha256" then key ++ pyTake key 12
  else if algoName = "sha512" then key ++ key ++ key ++ pyTake key 4
  else key

/-- The counter message fed to the keyed-hash engine (lines 84 and 88):
`hex(int(floor(time / period)))[2:].zfill(16)`. -/
def counterHex (time period : Nat) : String :=
  pyZfill (pyDigits 16 (time / period)) 16

/-- `generate_token` (lines 56-93), for an explicit non-negative `time`.
The keyed-hash engine `_hmac` (line 32) wraps the Python standard library's
`hmac`/`hashlib` and is passed in as `fn` (the hex key and hex counter
message arguments, returning the hex digest). -/
def generate_token (fn : String → String → String) (key : String)
    (time : Nat) (digits : Nat) (period : Nat) (algoName : String) :
    Option String := do
  let key := padKey algoName key
  let convert ← _convert_from_secret key
  let output := fn convert (counterHex time period)
  let code ← _gen_htop_value output digits
  pure (pyTakeLast (pyZfill (pyDigits 10 code) digits) digits)

/-- `hashlib.algorithms_available` as modelled here: the algorithms CPython's
`hashlib` guarantees on every platform (a given interpreter may add
OpenSSL-specific extras; the claims under study only need that unknown names
are outside the set). -/
def algorithms_available : List String :=
  ["blake2b", "blake2s", "md5", "sha1", "sha224", "sha256", "sha384",
   "sha3_224", "sha3_256", "sha3_384", "sha3_512", "sha512",
   "shake_128", "shake_256"]

/-- The `TOTP` session object (line 96).  The algorithm is modelled by its
name (`_algo_name` of line 15 resolves a callable to its name before every
use). -/
structure TOTP where
  key : String
  digits : Nat
  period : Nat
  algo : String
deriving DecidableEq, Repr

/-- The `digits` property setter (lines 230-234): integer coercion only, no
validation. -/
def TOTP.setDigits (t : TOTP) (digits : Nat) : TOTP := { t with digits := digits }

/-- The `period` property setter (lines 240-246): rejects `period ≤ 0` with
`ValueError`, modelled as `Except.error` of the message. -/
def TOTP.setPeriod (t : TOTP) (period : Int) : Except String TOTP :=
  if period ≤ 0 then
    Except.error "The period (period) must be a positive amount of time."
  else Except.ok { t with period := period.toNat }

/-- The `algo` property setter (lines 252-259): rejects names outside
`hashlib.algorithms_available` with `ValueError`. -/
def TOTP.setAlgo (t : TOTP) (algo : String) : Except String TOTP :=
  if algo ∈ algorithms_available then Except.ok { t with algo := algo }
  else Except.error "The algorithm must be from the hashlib library."

/-- `TOTP.__init__` (lines 97-114): assigns through the property setters, so
an invalid period or algorithm fails construction.  The pre-assignment field
values are placeholders that every run immediately overwrites. -/
def TOTP.make (key : String) (digits : Nat) (period : Int) (algo : String) :
    Except String TOTP :=
  match (TOTP.mk key digits 30 "sha1").setPeriod period with
  | Except.error e => Except.error e
  | Except.ok t => t.setAlgo algo

/-- `TOTP.link` (lines 124-147).  Faithful to the source, including the bug
on line 144: in the non-default branch the string `f"period={self.period}"`
is built but never appended to `link`. -/
def TOTP.link (t : TOTP) (issuer user : String) (icon : Option String)
    (add_default_args : Bool) : String :=
  let algo := t.algo
  let link :=
    if add_default_args then
      "otpauth://totp/" ++ issuer ++ ":" ++ user ++ "?secret=" ++ t.key ++
        "&issuer=" ++ issuer ++ "&Algorithm=" ++ algo ++ "&digits=" ++
        pyDigits 10 t.digits ++ "&period=" ++ pyDigits 10 t.period
    else
      let l := "otpauth://totp/" ++ issuer ++ ":" ++ user ++ "?secret=" ++
        t.key ++ "&issuer=" ++ issuer
      let l := if pyLower algo ≠ "sha1" then l ++ "&Algorithm=" ++ algo else l
      let l := if t.digits ≠ 6 then l ++ "&digits=" ++ pyDigits 10 t.digits else l
      l
  let link := match icon with
    | some ic => link ++ "&icon=" ++ ic
    | none => link
  _parse_http link

/-- `TOTP.generate` (lines 116-122). -/
def TOTP.generate (t : TOTP) (fn : String → String → String) (time : Nat) :
    Option String :=
  generate_token fn t.key time t.digits t.period t.algo

/-! ## Claim C1 -/

/-- C1: the secret decoder does NOT fail on a character outside the
32-symbol alphabet.  For the secret `"0"` (the character `0` is not in the
alphabet), `_CHARSET.find` yields `-1`, which flows through
`bin(-1) = "-0b1"`, `zfill` to `"-0001"`, and the slice loop to the hex
string `"01"` — a silent success, where the specification demands a decode
error.  This theorem evaluates the code at the failing input. -/
theorem c1_invalid_char_silently_decoded : _convert_from_secret "0" = some "01" := by
  decide

/-! ## Claim C2 -/

/-- C2 counterexample: for the key `"ABCDE"` under SHA-512 the code does not
produce four copies of the key followed by its first 4 characters (it
produces three copies followed by the first 4 characters, per RFC 6238's
64-byte test-vector convention). -/
theorem c2_counterexample :
    padKey "sha512" "ABCDE" ≠ "ABCDE" ++ "ABCDE" ++ "ABCDE" ++ "ABCDE" ++ "ABCD" := by
  decide

/-- C2 (amended): the pre-padding `generate_token` applies before decoding
(see the definition of `generate_token`, which decodes `padKey algoName
key`): SHA-256 appends the key's first 12 characters; SHA-512 yields three
copies of the key followed by its first 4 characters; other algorithms leave
the key unchanged. -/
theorem c2_prepadding (key : String) :
    padKey "sha256" key = key ++ pyTake key 12 ∧
    padKey "sha512" key = key ++ key ++ key ++ pyTake key 4 ∧
    padKey "sha1" key = key := by
  refine ⟨rfl, ?_, rfl⟩
  rfl

/-! ## Claim C3 -/

/-- C3: with a non-default period (60) and `add_default_args = False`, the
provisioning URI contains no `period` parameter at all: the source builds
the string `f"period={self.period}"` on line 144 but never appends it to
`link`.  The claim (and RFC-default rule) requires `period=60` to appear. -/
theorem c3_period_param_dropped :
    (TOTP.mk "ABC" 6 60 "sha1").link "Acme" "alice" none false =
      "otpauth://totp/Acme:alice?secret=ABC&issuer=Acme" ∧
    occursIn ((TOTP.mk "ABC" 6 60 "sha1").link "Acme" "alice" none false)
      "period" = false := by
  exact ⟨by decide, by decide⟩

/-! ## Claim C5 -/

/-- C5 counterexample: with algorithm `sha256` the URI does not contain
`&Algorithm=SHA256`; the algorithm name is appended exactly as stored
(lower-case). -/
theorem c5_counterexample :
    occursIn ((TOTP.mk "ACAHAACAAJGILAOC" 6 30 "sha256").link "Acme"
      "alice@example.com" none false) "&Algorithm=SHA256" = false := by
  decide

/-- C5 (amended): with default algorithm (sha1), digits (6) and period (30)
and `add_default_args = False` the URI contains no `Algorithm`, `digits` or
`period` query parameter; with algorithm `sha256` it contains
`&Algorithm=sha256` (the stored lower-case name, not `SHA256`). -/
theorem c5_default_and_sha256_params :
    (occursIn ((TOTP.mk "ACAHAACAAJGILAOC" 6 30 "sha1").link "Acme"
        "alice@example.com" none false) "Algorithm" = false ∧
      occursIn ((TOTP.mk "ACAHAACAAJGILAOC" 6 30 "sha1").link "Acme"
        "alice@example.com" none false) "digits" = false ∧
      occursIn ((TOTP.mk "ACAHAACAAJGILAOC" 6 30 "sha1").link "Acme"
        "alice@example.com" none false) "period" = false) ∧
    occursIn ((TOTP.mk "ACAHAACAAJGILAOC" 6 30 "sha256").link "Acme"
      "alice@example.com" none false) "&Algorithm=sha256" = true := by
  refine ⟨⟨?_, ?_, ?_⟩, ?_⟩ <;> decide

/-! ## Claim C4 -/

/-- C4: assigning a non-positive period or an algorithm name outside
`hashlib.algorithms_available` — via a setter or at construction — raises
`ValueError` (modelled as `Except.error`), so no session ever holds the
invalid value and no silent default is substituted. -/
theorem c4_eager_validation :
    (∀ (t : TOTP) (p : Int), p ≤ 0 → t.setPeriod p =
      Except.error "The period (period) must be a positive amount of time.") ∧
    (∀ (t : TOTP) (a : String), a ∉ algorithms_available → t.setAlgo a =
      Except.error "The algorithm must be from the hashlib library.") ∧
    (∀ (key : String) (digits : Nat) (p : Int) (a : String),
      p ≤ 0 ∨ a ∉ algorithms_available →
      ∀ t : TOTP, TOTP.make key digits p a ≠ Except.ok t) := by
  refine ⟨?_, ?_, ?_⟩
  · intro t p hp
    simp [TOTP.setPeriod, hp]
  · intro t a ha
    simp [TOTP.setAlgo, ha]
  · intro key digits p a h t
    by_cases hp : p ≤ 0
    · have h1 : (TOTP.mk key digits 30 "sha1").setPeriod p = Except.error
          "The period (period) must be a positive amount of time." := by
        simp [TOTP.setPeriod, hp]
      simp [TOTP.make, h1]
    · have ha : a ∉ algorithms_available := by tauto
      cases hm : (TOTP.mk key digits 30 "sha1").setPeriod p with
      | error e => simp [TOTP.make, hm]
      | ok t0 =>
        have h2 : t0.setAlgo a = Except.error
            "The algorithm must be from the hashlib library." := by
          simp [TOTP.setAlgo, ha]
        simp [TOTP.make, hm, h2]

/-- C4 witness: concrete invalid assignments fail. -/
theorem c4_eager_validation_witness :
    (TOTP.mk "A" 6 30 "sha1").setPeriod 0 =
      Except.error "The period (period) must be a positive amount of time." ∧
    (TOTP.mk "A" 6 30 "sha1").setAlgo "foo" =
      Except.error "The algorithm must be from the hashlib library." ∧
    ∀ t : TOTP, TOTP.make "A" 6 0 "sha1" ≠ Except.ok t :=
  ⟨c4_eager_validation.1 _ 0 (by decide),
   c4_eager_validation.2.1 _ "foo" (by decide),
   c4_eager_validation.2.2 "A" 6 0 "sha1" (Or.inl (by decide))⟩

/-! ## Claim C8 -/

theorem pyZfill_of_nosign (s : String) (w : Nat)
    (h : ∀ c ∈ s.data, c ≠ '-' ∧ c ≠ '+') :
    pyZfill s w = ⟨List.replicate (w - s.length) '0' ++ s.data⟩ := by
  unfold pyZfill
  split
  · next hnil =>
    have : s.length = 0 := by simp [String.length, hnil]
    simp [hnil, this]
  · next c rest hcons =>
    have hc : c ≠ '-' ∧ c ≠ '+' := h c (by rw [hcons]; simp)
    rw [if_neg (by tauto), hcons]

theorem pyZfill_length (s : String) (w : Nat) :
    (pyZfill s w).length = max s.length w := by
  have hsl : s.length = s.data.length := rfl
  unfold pyZfill
  split
  · next hnil =>
    have h0 : s.length = 0 := by rw [hsl, hnil]; rfl
    show (List.replicate w '0').length = max s.length w
    rw [List.length_replicate, h0]
    omega
  · next c rest hcons =>
    have h1 : s.length = rest.length + 1 := by rw [hsl, hcons]; simp
    split
    · show (c :: (List.replicate (w - s.length) '0' ++ rest)).length = max s.length w
      simp only [List.length_cons, List.length_append, List.length_replicate]
      omega
    · show (List.replicate (w - s.length) '0' ++ c :: rest).length = max s.length w
      simp only [List.length_append, List.length_replicate, List.length_cons]
      omega

theorem pyDigits16_eq (n : Nat) :
    pyDigits 16 n = if n = 0 then "0" else ⟨digitsRec2 14 n⟩ := by
  have := pyDigits_eq 14 n
  norm_num at this
  exact this

theorem pyDigits10_eq (n : Nat) :
    pyDigits 10 n = if n = 0 then "0" else ⟨digitsRec2 8 n⟩ := by
  have := pyDigits_eq 8 n
  norm_num at this
  exact this

/-- C8 counterexample: at `time = 2^64`, `period = 1` the counter message has
17 hex digits, not 16: `zfill` pads but never truncates, so the claim's
"fixed 16-hex-digit string" fails for counters of 2^64 and above. -/
theorem c8_counterexample : (counterHex (2 ^ 64) 1).length ≠ 16 := by decide

/-- C8 (amended): the counter message fed to the keyed-hash engine is
`floor(time / period)` rendered as a zero-padded big-endian hexadecimal
string of at least 16 digits — exactly 16 whenever `floor(time / period) <
2^64` — and parsing it back as a big-endian base-16 numeral recovers
`floor(time / period)`. -/
theorem c8_counter_message (t p : Nat) (hp : 0 < p) :
    16 ≤ (counterHex t p).length ∧
    (t / p < 2 ^ 64 → (counterHex t p).length = 16) ∧
    intValGo 16 (counterHex t p).data 0 = some (t / p) := by
  have hlen16 : 16 ≤ (counterHex t p).length := by
    unfold counterHex
    rw [pyZfill_length]
    omega
  have hexact : t / p < 2 ^ 64 → (counterHex t p).length = 16 := by
    intro hlt
    unfold counterHex
    rw [pyZfill_length]
    rcases Nat.eq_zero_or_pos (t / p) with h0 | hpos
    · rw [h0, pyDigits16_eq]
      simp [String.length]
    · rw [pyDigits16_eq, if_neg (by omega)]
      have hle : (digitsRec2 14 (t / p)).length ≤ 16 := by
        apply digitsRec2_length_le
        norm_num
        exact hlt
      simp only [String.length]
      omega
  refine ⟨hlen16, hexact, ?_⟩
  rcases Nat.eq_zero_or_pos (t / p) with h0 | hpos
  · rw [h0]
    unfold counterHex
    rw [h0, pyDigits16_eq]
    simp only [if_pos rfl]
    decide
  · have hne : t / p ≠ 0 := by omega
    unfold counterHex
    rw [pyDigits16_eq, if_neg hne]
    have hns : ∀ c ∈ (⟨digitsRec2 14 (t / p)⟩ : String).data, c ≠ '-' ∧ c ≠ '+' := by
      intro c hc
      obtain ⟨d, hd, rfl⟩ := digitsRec2_chars 14 (t / p) c hc
      exact digitChar_ne_sign d (by omega)
    rw [pyZfill_of_nosign _ _ hns]
    show intValGo 16 (List.replicate _ '0' ++ digitsRec2 14 (t / p)) 0 = _
    rw [intValGo_replicate_zero 16 (by omega), intValGo_digitsRec2_16]
    simp

/-- C8 witness: the amended statement at the spec's golden timestamp. -/
theorem c8_counter_message_witness :
    16 ≤ (counterHex 1686012424 30).length ∧
    (1686012424 / 30 < 2 ^ 64 → (counterHex 1686012424 30).length = 16) ∧
    intValGo 16 (counterHex 1686012424 30).data 0 = some (1686012424 / 30) :=
  c8_counter_message 1686012424 30 (by decide)

/-! ## Claim C7 -/

/-- The byte sequence of a hex string, as the claim's step "parse the hex
string into its byte sequence" (each 2-character slice read as a base-16
numeral). -/
def dtBytes (hv : String) : List Nat :=
  (chunk2 hv.data).map (fun ch => ch.foldl (fun a c => 16 * a + charVal c) 0)

/-- Dynamic truncation exactly as the claim writes it: `offset` is the low 4
bits of the last byte and `code_int = ((bytes[offset] & 0x7F) << 24) |
(bytes[offset+1] << 16) | (bytes[offset+2] << 8) | bytes[offset+3]`. -/
def dtCode (b : List Nat) : Nat :=
  let offset := b.getD (b.length - 1) 0 &&& 0xf
  ((b.getD offset 0 &&& 0x7f) <<< 24) ||| (b.getD (offset + 1) 0 <<< 16) |||
    (b.getD (offset + 2) 0 <<< 8) ||| b.getD (offset + 3) 0

theorem and_255_eq (v : Nat) (hv : v < 256) : v &&& 255 = v := by
  have h := Nat.and_pow_two_sub_one_eq_mod v 8
  norm_num at h
  rw [h]
  exact Nat.mod_eq_of_lt hv

theorem and_15_lt (v : Nat) : v &&& 15 < 16 := by
  have h := Nat.and_pow_two_sub_one_eq_mod v 4
  norm_num at h
  rw [h]
  exact Nat.mod_lt _ (by omega)

theorem parseBytes_eq (chunks : List (List Char))
    (h : ∀ ch ∈ chunks, ch ≠ [] ∧ ∀ c ∈ ch, charVal c < 16) :
    parseBytes chunks =
      some (chunks.map (fun ch => ch.foldl (fun a c => 16 * a + charVal c) 0)) := by
  induction chunks with
  | nil => rfl
  | cons ch rest ih =>
    obtain ⟨hne, hchars⟩ := h ch (by simp)
    have hval := intValGo_of_valid 16 ch hchars 0
    cases ch with
    | nil => exact absurd rfl hne
    | cons c cs =>
      simp only [parseBytes, hval, ih (fun x hx => h x (by simp [hx])),
        List.map_cons]
      rfl

theorem foldl_byte_lt (ch : List Char) (hlen : ch.length ≤ 2)
    (h : ∀ c ∈ ch, charVal c < 16) :
    ch.foldl (fun a c => 16 * a + charVal c) 0 < 256 := by
  rcases ch with _ | ⟨a, _ | ⟨b, _ | ⟨c, tl⟩⟩⟩
  · simp
  · have := h a (by simp)
    simp only [List.foldl_cons, List.foldl_nil]
    omega
  · have ha := h a (by simp)
    have hb := h b (by simp [List.mem_cons])
    simp only [List.foldl_cons, List.foldl_nil]
    omega
  · simp at hlen

theorem gen_htop_value_eq_dtCode (hv : String) (d : Nat) (B : List Nat)
    (hparse : parseBytes (chunk2 hv.data) = some B)
    (hlen : 20 ≤ B.length) (hbytes : ∀ v ∈ B, v < 256) :
    _gen_htop_value hv d = some (dtCode B % 10 ^ d) := by
  have hidx : ∀ i, i < B.length → B[i]? = some (B.getD i 0) := by
    intro i hi
    rw [List.getElem?_eq_getElem hi, List.getD_eq_getElem _ _ hi]
  have hval : ∀ i, i < B.length → B.getD i 0 < 256 := by
    intro i hi
    rw [List.getD_eq_getElem _ _ hi]
    exact hbytes _ (List.getElem_mem _)
  have hoff := and_15_lt (B.getD (B.length - 1) 0)
  have hlast : B.getLast? = some (B.getD (B.length - 1) 0) := by
    rw [List.getLast?_eq_getElem?]
    exact hidx _ (by omega)
  have h0 := hidx (B.getD (B.length - 1) 0 &&& 15) (by omega)
  have h1 := hidx ((B.getD (B.length - 1) 0 &&& 15) + 1) (by omega)
  have h2 := hidx ((B.getD (B.length - 1) 0 &&& 15) + 2) (by omega)
  have h3 := hidx ((B.getD (B.length - 1) 0 &&& 15) + 3) (by omega)
  have hv1 := and_255_eq _ (hval ((B.getD (B.length - 1) 0 &&& 15) + 1) (by omega))
  have hv2 := and_255_eq _ (hval ((B.getD (B.length - 1) 0 &&& 15) + 2) (by omega))
  have hv3 := and_255_eq _ (hval ((B.getD (B.length - 1) 0 &&& 15) + 3) (by omega))
  simp only [_gen_htop_value, dtCode, hparse, Option.bind_eq_bind, Option.some_bind,
    hlast, h0, h1, h2, h3, hv1, hv2, hv3, Option.pure_def]

/-- C7: `_gen_htop_value` implements the claim's dynamic-truncation
procedure: for any hex digest of full SHA-1/SHA-256/SHA-512 length (40, 64
or 128 hex characters) and positive digit count, it parses the byte
sequence, takes `offset` as the low 4 bits of the last byte, computes
`code_int` by the claim's masked big-endian formula, and returns `code_int
mod 10^digits`. -/
theorem c7_dynamic_truncation (hv : String) (d : Nat) (hd : 0 < d)
    (hhex : ∀ c ∈ hv.data, charVal c < 16)
    (hlen : hv.length = 40 ∨ hv.length = 64 ∨ hv.length = 128) :
    _gen_htop_value hv d = some (dtCode (dtBytes hv) % 10 ^ d) := by
  have hch : ∀ ch ∈ chunk2 hv.data, ch ≠ [] ∧ ∀ c ∈ ch, charVal c < 16 := by
    intro ch hmem
    obtain ⟨h1, h2, h3⟩ := chunk2_mem hv.data ch hmem
    exact ⟨h1, fun c hc => hhex c (h3 c hc)⟩
  have hparse : parseBytes (chunk2 hv.data) = some (dtBytes hv) :=
    parseBytes_eq _ hch
  have hdata : hv.length = hv.data.length := rfl
  have hblen : 20 ≤ (dtBytes hv).length := by
    unfold dtBytes
    rw [List.length_map, chunk2_length]
    omega
  have hbytes : ∀ v ∈ dtBytes hv, v < 256 := by
    intro v hvmem
    unfold dtBytes at hvmem
    obtain ⟨ch, hmem, rfl⟩ := List.mem_map.1 hvmem
    obtain ⟨h1, h2, h3⟩ := chunk2_mem hv.data ch hmem
    exact foldl_byte_lt ch h2 (fun c hc => hhex c (h3 c hc))
  exact gen_htop_value_eq_dtCode hv d (dtBytes hv) hparse hblen hbytes

/-- C7 witness: a concrete 40-hex-character digest with 6 digits. -/
theorem c7_dynamic_truncation_witness :
    _gen_htop_value "0123456789abcdef0123456789abcdef01234567" 6 =
      some (dtCode (dtBytes "0123456789abcdef0123456789abcdef01234567") % 10 ^ 6) :=
  c7_dynamic_truncation _ 6 (by decide) (by decide) (Or.inl (by decide))

/-! ## Claims C6, C9, C10 -/

/-- A valid secret: every character is in the 32-symbol alphabet. -/
def validSecret (s : String) : Prop := ∀ c ∈ s.data, c ∈ _CHARSET.data

instance (s : String) : Decidable (validSecret s) := by
  unfold validSecret
  infer_instance

/-- For every alphabet character, `_lambda` yields exactly five binary
digits. -/
theorem _lambda_bin : ∀ x ∈ _CHARSET.data,
    (_lambda x).length = 5 ∧ ∀ c ∈ _lambda x, c = '0' ∨ c = '1' := by
  decide

theorem pyIntSigned_bin_some (ch : List Char) (hne : ch ≠ [])
    (hbin : ∀ c ∈ ch, c = '0' ∨ c = '1') :
    ∃ v, pyIntSigned 2 ch = some v := by
  cases ch with
  | nil => exact absurd rfl hne
  | cons c cs =>
    have hc := hbin c (by simp)
    have hc1 : c ≠ '-' := by rcases hc with rfl | rfl <;> decide
    have hc2 : c ≠ '+' := by rcases hc with rfl | rfl <;> decide
    have hval : ∀ x ∈ c :: cs, charVal x < 2 := by
      intro x hx
      rcases hbin x hx with rfl | rfl <;> decide
    simp only [pyIntSigned, if_neg hc1, if_neg hc2,
      intValGo_of_valid 2 _ hval, Option.map_some]
    exact ⟨_, rfl⟩

theorem hexJoin_some (chunks : List (List Char))
    (h : ∀ ch ∈ chunks, ∃ v, pyIntSigned 2 ch = some v) :
    ∃ s, hexJoin chunks = some s := by
  induction chunks with
  | nil => exact ⟨"", rfl⟩
  | cons ch rest ih =>
    obtain ⟨v, hv⟩ := h ch (by simp)
    obtain ⟨s, hs⟩ := ih (fun x hx => h x (by simp [hx]))
    exact ⟨pyHexStripped v ++ s, by simp only [hexJoin, hv, hs]⟩

/-- Decoding succeeds on every valid secret. -/
theorem convert_from_secret_some (s : String) (hs : validSecret s) :
    ∃ h, _convert_from_secret s = some h := by
  have hbin : ∀ c ∈ (s.data.map _lambda).flatten, c = '0' ∨ c = '1' := by
    intro c hc
    rw [List.mem_flatten] at hc
    obtain ⟨l, hl, hcl⟩ := hc
    obtain ⟨x, hx, rfl⟩ := List.mem_map.1 hl
    exact (_lambda_bin x (hs x hx)).2 c hcl
  apply hexJoin_some
  intro ch hch
  obtain ⟨hne, hsub⟩ := chunk4_mem _ ch hch
  exact pyIntSigned_bin_some ch hne (fun c hc => hbin c (hsub c hc))

/-- Pre-padding preserves secret validity. -/
theorem validSecret_padKey (a : String) (s : String) (hs : validSecret s) :
    validSecret (padKey a s) := by
  have htake : ∀ n, ∀ c ∈ (pyTake s n).data, c ∈ _CHARSET.data := by
    intro n c hc
    exact hs c (List.mem_of_mem_take hc)
  have happ : ∀ s1 s2 : String, validSecret s1 → validSecret s2 →
      validSecret (s1 ++ s2) := by
    intro s1 s2 h1 h2 c hc
    rw [String.data_append] at hc
    rcases List.mem_append.1 hc with h | h
    · exact h1 c h
    · exact h2 c h
  unfold padKey
  split
  · exact happ _ _ hs (htake 12)
  · split
    · exact happ _ _ (happ _ _ (happ _ _ hs hs) hs) (htake 4)
    · exact hs

/-- `_gen_htop_value` succeeds on any all-hex string of length at least 40
(every full digest length), returning the dynamic-truncation value. -/
theorem gen_htop_value_spec (hv : String) (d : Nat) (hlen : 40 ≤ hv.length)
    (hhex : ∀ c ∈ hv.data, charVal c < 16) :
    _gen_htop_value hv d = some (dtCode (dtBytes hv) % 10 ^ d) := by
  have hch : ∀ ch ∈ chunk2 hv.data, ch ≠ [] ∧ ∀ c ∈ ch, charVal c < 16 := by
    intro ch hmem
    obtain ⟨h1, h2, h3⟩ := chunk2_mem hv.data ch hmem
    exact ⟨h1, fun c hc => hhex c (h3 c hc)⟩
  have hparse : parseBytes (chunk2 hv.data) = some (dtBytes hv) :=
    parseBytes_eq _ hch
  have hdata : hv.length = hv.data.length := rfl
  have hblen : 20 ≤ (dtBytes hv).length := by
    unfold dtBytes
    rw [List.length_map, chunk2_length]
    omega
  have hbytes : ∀ v ∈ dtBytes hv, v < 256 := by
    intro v hvmem
    unfold dtBytes at hvmem
    obtain ⟨ch, hmem, rfl⟩ := List.mem_map.1 hvmem
    obtain ⟨h1, h2, h3⟩ := chunk2_mem hv.data ch hmem
    exact foldl_byte_lt ch h2 (fun c hc => hhex c (h3 c hc))
  exact gen_htop_value_eq_dtCode hv d (dtBytes hv) hparse hblen hbytes

theorem pyDigits10_nosign (n : Nat) :
    ∀ c ∈ (pyDigits 10 n).data, c ≠ '-' ∧ c ≠ '+' := by
  intro c hc
  rw [pyDigits10_eq] at hc
  split at hc
  · have : c = '0' := by simpa using hc
    subst this
    exact ⟨by decide, by decide⟩
  · obtain ⟨d, hd, rfl⟩ := digitsRec2_chars 8 n c hc
    exact digitChar_ne_sign d (by omega)

theorem pyDigits10_chars (n : Nat) : ∀ c ∈ (pyDigits 10 n).data, c.isDigit := by
  intro c hc
  rw [pyDigits10_eq] at hc
  split at hc
  · have : c = '0' := by simpa using hc
    subst this
    decide
  · obtain ⟨d, hd, rfl⟩ := digitsRec2_chars 8 n c hc
    have : ∀ d, d < 10 → (Nat.digitChar d).isDigit := by decide
    exact this d (by omega)

/-- The formatting tail of `generate_token`
(`str(code).zfill(digits)[-digits:]`): exactly `digits` characters, all
decimal. -/
theorem generate_format (code d : Nat) (hd : 0 < d) :
    (pyTakeLast (pyZfill (pyDigits 10 code) d) d).length = d ∧
    ∀ c ∈ (pyTakeLast (pyZfill (pyDigits 10 code) d) d).data, c.isDigit := by
  have hz := pyZfill_of_nosign (pyDigits 10 code) d (pyDigits10_nosign code)
  have hzl := pyZfill_length (pyDigits 10 code) d
  have hdl : (pyZfill (pyDigits 10 code) d).data.length =
      (pyZfill (pyDigits 10 code) d).length := rfl
  unfold pyTakeLast
  rw [if_neg (by omega)]
  constructor
  · show ((pyZfill (pyDigits 10 code) d).data.drop _).length = d
    rw [List.length_drop, hdl, hzl]
    omega
  · intro c hc
    have hc2 : c ∈ (pyZfill (pyDigits 10 code) d).data :=
      (List.drop_sublist _ _).subset hc
    rw [hz] at hc2
    rcases List.mem_append.1 hc2 with h | h
    · have : c = '0' := List.eq_of_mem_replicate h
      subst this
      decide
    · exact pyDigits10_chars code c h

/-- C6: for every valid secret, positive digit count, positive period,
supported algorithm, non-negative time, and keyed-hash engine returning
full hex digests, `generate_token` returns a string of exactly `digits`
characters, all decimal (left-zero-padded by `zfill`). -/
theorem c6_generate_format (fn : String → String → String) (key : String)
    (t d p : Nat) (a : String)
    (hkey : validSecret key) (hd : 0 < d) (hp : 0 < p)
    (ha : a ∈ algorithms_available)
    (hfn : ∀ k m, 40 ≤ (fn k m).length ∧ ∀ c ∈ (fn k m).data, charVal c < 16) :
    ∃ s, generate_token fn key t d p a = some s ∧
      s.length = d ∧ ∀ c ∈ s.data, c.isDigit := by
  obtain ⟨cv, hcv⟩ := convert_from_secret_some _ (validSecret_padKey a key hkey)
  obtain ⟨hlen40, hhex⟩ := hfn cv (counterHex t p)
  have hcode := gen_htop_value_spec (fn cv (counterHex t p)) d hlen40 hhex
  obtain ⟨hlen, hchars⟩ :=
    generate_format (dtCode (dtBytes (fn cv (counterHex t p))) % 10 ^ d) d hd
  refine ⟨_, ?_, hlen, hchars⟩
  simp only [generate_token, hcv, Option.bind_eq_bind, Option.some_bind, hcode,
    Option.pure_def]

/-- C6 witness: a concrete valid secret, 6 digits, period 30, algorithm
sha1, and a stub engine returning a fixed 40-hex digest. -/
theorem c6_generate_format_witness :
    ∃ s, generate_token (fun _ _ => "0123456789abcdef0123456789abcdef01234567")
      "ACAHAACAAJGILAOC" 1686012424 6 30 "sha1" = some s ∧
      s.length = 6 ∧ ∀ c ∈ s.data, c.isDigit :=
  c6_generate_format _ "ACAHAACAAJGILAOC" 1686012424 6 30 "sha1"
    (by decide) (by decide) (by decide) (by decide)
    (fun k m => ⟨by decide, by decide⟩)

/-- C9: for a fixed secret, digit count, period, algorithm and hash engine,
`generate_token` yields the same code at any two times in the same counter
window: the code depends on the time only through `floor(time / period)`. -/
theorem c9_counter_stability (fn : String → String → String) (key : String)
    (t1 t2 d p : Nat) (a : String) (hp : 0 < p) (h : t1 / p = t2 / p) :
    generate_token fn key t1 d p a = generate_token fn key t2 d p a := by
  unfold generate_token counterHex
  rw [h]

/-- C9 witness: times 31 and 59 share counter window 1 at period 30. -/
theorem c9_counter_stability_witness :
    generate_token (fun _ _ => "0123456789abcdef0123456789abcdef01234567")
      "ACAHAACAAJGILAOC" 31 6 30 "sha1" =
    generate_token (fun _ _ => "0123456789abcdef0123456789abcdef01234567")
      "ACAHAACAAJGILAOC" 59 6 30 "sha1" :=
  c9_counter_stability _ "ACAHAACAAJGILAOC" 31 59 6 30 "sha1"
    (by decide) (by decide)

/-- C10: the `digits` setter accepts `0` (it validates nothing), and a
generate call with `digits = 0` returns the one-character string `"0"`:
`code % 10^0 = 0`, `str(0).zfill(0) = "0"`, and the Python slice
`"0"[-0:]` is the whole string, so the returned code's length (1) differs
from the configured digit count (0). -/
theorem c10_zero_digits :
    (∀ tp : TOTP, (tp.setDigits 0).digits = 0) ∧
    ∀ (fn : String → String → String) (key : String) (t p : Nat) (a : String),
      validSecret key →
      (∀ k m, 40 ≤ (fn k m).length ∧ ∀ c ∈ (fn k m).data, charVal c < 16) →
      generate_token fn key t 0 p a = some "0" := by
  constructor
  · intro tp
    rfl
  · intro fn key t p a hkey hfn
    obtain ⟨cv, hcv⟩ := convert_from_secret_some _ (validSecret_padKey a key hkey)
    obtain ⟨hlen40, hhex⟩ := hfn cv (counterHex t p)
    have hcode := gen_htop_value_spec (fn cv (counterHex t p)) 0 hlen40 hhex
    simp only [pow_zero, Nat.mod_one] at hcode
    simp only [generate_token, hcv, Option.bind_eq_bind, Option.some_bind, hcode,
      Option.pure_def, Option.some.injEq]
    decide

/-- C10 witness: a session mutated to 0 digits, and a concrete generate
call with 0 digits returning `"0"`. -/
theorem c10_zero_digits_witness :
    ((TOTP.mk "ACAHAACAAJGILAOC" 6 30 "sha1").setDigits 0).digits = 0 ∧
    generate_token (fun _ _ => "0123456789abcdef0123456789abcdef01234567")
      "ACAHAACAAJGILAOC" 1686012424 0 30 "sha1" = some "0" :=
  ⟨c10_zero_digits.1 (TOTP.mk "ACAHAACAAJGILAOC" 6 30 "sha1"),
   c10_zero_digits.2 _ "ACAHAACAAJGILAOC" 1686012424 30 "sha1"
     (by decide) (fun k m => ⟨by decide, by decide⟩)⟩
